import Mathlib

set_option autoImplicit false
set_option linter.constructorNameAsVariable false

/-!
Verification of the FreeOrion content record `GRO_SYMBIOTIC_BIO`
(`default/scripting/techs/growth/SYMBIOTIC_BIO.focs.py`) against its
natural-language specification.

The source file is a single declarative `Tech(...)` record.  We embed the
record's data model (Tech, EffectsGroup, unlock Items, the scope-condition
and value-expression ASTs) directly from the source.  The loader/validator
and the effect-resolution engine are not part of the source tree; following
the specification, those operations are modelled from the spec's words and
each such definition is marked `Modelled from the spec:` in its doc comment.
-/

/-- Planet environment quality levels referenced by the source
(`Good`, `Adequate`, `Poor`) together with the other levels the spec
mentions (`Hostile`, and the uninhabitable baseline). -/
inductive PlanetEnvironment where
  | uninhabitable
  | hostile
  | poor
  | adequate
  | good
deriving DecidableEq

/-- A planet's state: the attributes read or written by the declared
EffectsGroup (`owner`, `environment`, `HabitableSize`, target population)
plus further attributes (current population, focus) used to state frame
properties. -/
structure Planet where
  id : Nat
  owner : Option Nat
  environment : PlanetEnvironment
  habitableSize : Nat
  targetPopulation : Rat
  currentPopulation : Rat
  focus : String
deriving DecidableEq

/-- A game object: either a planet or some other (non-planet) object with
an owner, so that the `Planet()` type test in the scope is meaningful. -/
inductive GameObject where
  | planet (p : Planet)
  | ship (owner : Option Nat) (id : Nat)
deriving DecidableEq

/-- Owner of a game object. -/
def GameObject.owner : GameObject → Option Nat
  | .planet p => p.owner
  | .ship o _ => o

/-- The scope-condition language used by the record:
`Planet()`, `OwnedBy(empire=Source.Owner)`, `Planet(environment=[...])`,
combined with the boolean combinators the spec names (AND/OR/NOT). -/
inductive Condition where
  | planetType
  | ownedBySource
  | planetEnvironmentIn (envs : List PlanetEnvironment)
  | and (a b : Condition)
  | or (a b : Condition)
  | negation (a : Condition)
deriving DecidableEq

/-- Evaluation of a scope condition on a candidate object.  `sourceOwner`
is the owner empire of the source object (`Source.Owner`), i.e. the
researching empire.  This is a pure `Bool`-valued function of the inputs. -/
def evalCondition (sourceOwner : Nat) (obj : GameObject) : Condition → Bool
  | .planetType =>
      match obj with
      | .planet _ => true
      | _ => false
  | .ownedBySource => obj.owner == some sourceOwner
  | .planetEnvironmentIn envs =>
      match obj with
      | .planet p => envs.contains p.environment
      | _ => false
  | .and a b => evalCondition sourceOwner obj a && evalCondition sourceOwner obj b
  | .or a b => evalCondition sourceOwner obj a || evalCondition sourceOwner obj b
  | .negation a => ! evalCondition sourceOwner obj a

/-- The meter-value expression language used by the record's effect:
`Value + 1 * Target.HabitableSize`. -/
inductive ValueExpr where
  | value
  | constant (k : Int)
  | targetHabitableSize
  | add (a b : ValueExpr)
  | mul (a b : ValueExpr)
deriving DecidableEq

/-- Evaluation of a value expression, given the meter's current value
(`Value`) and the target planet (`Target`). -/
def evalValueExpr (current : Rat) (target : Planet) : ValueExpr → Rat
  | .value => current
  | .constant k => (k : Rat)
  | .targetHabitableSize => (target.habitableSize : Rat)
  | .add a b => evalValueExpr current target a + evalValueExpr current target b
  | .mul a b => evalValueExpr current target a * evalValueExpr current target b

/-- The effect language used by the record: `SetTargetPopulation(value=...)`. -/
inductive Effect where
  | setTargetPopulation (value : ValueExpr)
deriving DecidableEq

/-- Applying an effect to a planet.  `SetTargetPopulation` sets the target
population meter to the evaluated value expression, where `Value` is the
meter's current value and `Target` is the planet itself. -/
def applyEffect (e : Effect) (p : Planet) : Planet :=
  match e with
  | .setTargetPopulation v =>
      { p with targetPopulation := evalValueExpr p.targetPopulation p v }

/-- An EffectsGroup record, as declared in the source file. -/
structure EffectsGroup where
  scope : Condition
  accountinglabel : String
  priority : Int
  effects : Effect
deriving DecidableEq

/-- Unlock item types; the source uses `UnlockPolicy`. -/
inductive UnlockType where
  | unlockPolicy
deriving DecidableEq

/-- An unlock `Item(type=..., name=...)` record. -/
structure Item where
  type : UnlockType
  name : String
deriving DecidableEq

/-- The `prerequisites=` field as it appears in content records: the
source file passes a single identifier (`prerequisites="GRO_PLANET_ECOL"`),
while the schema elsewhere allows a sequence of identifiers. -/
inductive PrereqField where
  | single (n : String)
  | many (ns : List String)
deriving DecidableEq

/-- Normalized view of the `prerequisites` field as a list of Tech names. -/
def PrereqField.toList : PrereqField → List String
  | .single n => [n]
  | .many ns => ns

/-- A Tech record, with exactly the fields the source record supplies. -/
structure Tech where
  name : String
  description : String
  short_description : String
  category : String
  researchcost : Int
  researchturns : Int
  tags : List String
  prerequisites : PrereqField
  unlock : List Item
  effectsgroups : List EffectsGroup
  graphic : String
deriving DecidableEq

/-- Normalized prerequisite names of a Tech record. -/
def Tech.prereqNames (t : Tech) : List String :=
  t.prerequisites.toList

/-- The scope declared in the source record:
`Planet() & OwnedBy(empire=Source.Owner)
 & Planet(environment=[Good, Adequate, Poor])`. -/
def symbioticScope : Condition :=
  .and (.and .planetType .ownedBySource)
    (.planetEnvironmentIn [.good, .adequate, .poor])

/-- The effect declared in the source record:
`SetTargetPopulation(value=Value + 1 * Target.HabitableSize)`. -/
def symbioticEffect : Effect :=
  .setTargetPopulation (.add .value (.mul (.constant 1) .targetHabitableSize))

/-- The EffectsGroup declared in the source record; `prio` stands for the
external constant `TARGET_POPULATION_BEFORE_SCALING_PRIORITY`. -/
def symbioticGroup (prio : Int) : EffectsGroup :=
  { scope := symbioticScope
    accountinglabel := "GRO_TECH_ACCOUNTING_LABEL"
    priority := prio
    effects := symbioticEffect }

/-- The `Tech(...)` record declared in `SYMBIOTIC_BIO.focs.py`; `m` stands
for the external numeric constant `TECH_COST_MULTIPLIER` (modelled as an
integer parameter) and `prio` for
`TARGET_POPULATION_BEFORE_SCALING_PRIORITY`. -/
def symbioticBioTech (m : Int) (prio : Int) : Tech :=
  { name := "GRO_SYMBIOTIC_BIO"
    description := "GRO_SYMBIOTIC_BIO_DESC"
    short_description := "POPULATION_SHORT_DESC"
    category := "GROWTH_CATEGORY"
    researchcost := 50 * m
    researchturns := 6
    tags := ["PEDIA_GROWTH_CATEGORY"]
    prerequisites := .single "GRO_PLANET_ECOL"
    unlock := [ { type := .unlockPolicy, name := "PLC_DIVERSITY" },
                { type := .unlockPolicy, name := "PLC_BLACK_MARKET" } ]
    effectsgroups := [symbioticGroup prio]
    graphic := "icons/tech/symbiosis_biology.png" }

/-- Modelled from the spec: the effect-resolution engine is not in the
source tree.  Per the spec's evaluation contract, an EffectsGroup's effect
is applied once, to each object satisfying the scope predicate, within a
resolution pass.  Per-planet application: apply the effect when the planet
satisfies the scope, otherwise leave it unchanged. -/
def applyGroupToPlanet (sourceOwner : Nat) (g : EffectsGroup) (p : Planet) : Planet :=
  if evalCondition sourceOwner (.planet p) g.scope then applyEffect g.effects p else p

/-- Modelled from the spec: one resolution pass of a single EffectsGroup
over a universe of planets applies the effect once per scoped object. -/
def applyGroup (sourceOwner : Nat) (g : EffectsGroup) (objs : List Planet) : List Planet :=
  objs.map (applyGroupToPlanet sourceOwner g)

/-- Modelled from the spec: the error taxonomy of the content loader
(§7), which is not in the source tree. -/
inductive LoadError where
  | duplicateNameError (n : String)
  | unresolvedPrerequisiteError (tech missing : String)
  | invalidRangeError (n : String)
  | cyclicDependencyError
deriving DecidableEq

/-- Names of a list of Tech records. -/
def techNames (ts : List Tech) : List String :=
  ts.map Tech.name

/-- Modelled from the spec: the uniqueness constraint of `Validate`
(§4.1): a name collision with the already-accepted registry gives
`DuplicateNameError`. -/
def dupErrors (accepted : List Tech) (t : Tech) : List LoadError :=
  if (techNames accepted).contains t.name then [LoadError.duplicateNameError t.name] else []

/-- Modelled from the spec: the range constraints of `Validate` (§4.1):
`researchturns ≥ 1` and `researchcost ≥ 0`. -/
def rangeErrors (t : Tech) : List LoadError :=
  if t.researchturns < 1 ∨ t.researchcost < 0 then [LoadError.invalidRangeError t.name] else []

/-- Modelled from the spec: the resolvability constraint of `Validate`
(§4.1): every `prerequisites` entry must resolve to a loaded Tech name. -/
def prereqErrors (allNames : List String) (t : Tech) : List LoadError :=
  t.prereqNames.filterMap fun p =>
    if allNames.contains p then none
    else some (LoadError.unresolvedPrerequisiteError t.name p)

/-- Modelled from the spec: `Validate(record)` (§4.1), not in the source
tree.  Checks a candidate record against the already-accepted registry
(`accepted`) and the names of the full candidate set (`allNames`), and
collects every validation error rather than stopping at the first. -/
def validateRecord (accepted : List Tech) (allNames : List String) (t : Tech) : List LoadError :=
  dupErrors accepted t ++ rangeErrors t ++ prereqErrors allNames t

/-- Modelled from the spec: content loading (§7), not in the source tree.
Records are validated in order; a record with no validation errors is
accepted into the registry, a malformed record is rejected and excluded
while its errors are collected for operator visibility. -/
def loadContent (records : List Tech) : List Tech × List LoadError :=
  records.foldl
    (fun acc t =>
      let errs := validateRecord acc.1 (techNames records) t
      if errs.isEmpty then (acc.1 ++ [t], acc.2) else (acc.1, acc.2 ++ errs))
    ([], [])

/-- Modelled from the spec: the researching empire's state, tracking which
Techs it has completed and which Policies are selectable for it. -/
structure Empire where
  id : Nat
  researchedTechs : List String
  availablePolicies : List String
deriving DecidableEq

/-- Modelled from the spec: granting one unlock Item (§4.2): a Policy
becomes selectable for the empire; availability is set-like, so a Policy
that is already selectable is not added again. -/
def grantItem (e : Empire) (it : Item) : Empire :=
  match it.type with
  | .unlockPolicy =>
      if e.availablePolicies.contains it.name then e
      else { e with availablePolicies := e.availablePolicies ++ [it.name] }

/-- Modelled from the spec: processing a research-completion event (§4.2):
unlock items are applied exactly once, at the moment research on the
owning Tech completes; a completion event for a Tech already recorded as
researched grants nothing further. -/
def completeResearch (t : Tech) (e : Empire) : Empire :=
  if e.researchedTechs.contains t.name then e
  else t.unlock.foldl grantItem
    { e with researchedTechs := e.researchedTechs ++ [t.name] }

/-- Modelled from the spec: the prerequisite Tech `GRO_PLANET_ECOL` is
absent from the source tree; the spec's dependency-order scenario only
requires a loaded Tech of that name with no cycle back to
`GRO_SYMBIOTIC_BIO`, so it is modelled with no prerequisites. -/
def planetEcolTech : Tech :=
  { name := "GRO_PLANET_ECOL"
    description := "GRO_PLANET_ECOL_DESC"
    short_description := "POPULATION_SHORT_DESC"
    category := "GROWTH_CATEGORY"
    researchcost := 10
    researchturns := 1
    tags := ["PEDIA_GROWTH_CATEGORY"]
    prerequisites := .many []
    unlock := []
    effectsgroups := []
    graphic := "" }

/-- A Tech is ready once all of its prerequisites are in `done`. -/
def readyTech (done : List String) (t : Tech) : Bool :=
  t.prereqNames.all fun p => done.contains p

/-- Modelled from the spec: the work loop of `ResolveDependencyOrder`
(§4.1), not in the source tree.  Kahn-style selection: repeatedly move
some pending Tech whose prerequisites are all already emitted onto the
accumulator (`done`, newest first); if none exists while records are
still pending, the prerequisite graph has a cycle. -/
def topoAux : Nat → List String → List Tech → Except LoadError (List String)
  | 0, done, pending =>
      if pending.isEmpty then .ok done.reverse else .error .cyclicDependencyError
  | fuel + 1, done, pending =>
      if pending.isEmpty then .ok done.reverse
      else
        match pending.find? (readyTech done) with
        | none => .error .cyclicDependencyError
        | some t => topoAux fuel (t.name :: done) (pending.erase t)

/-- Modelled from the spec: `ResolveDependencyOrder(allTechs)` (§4.1),
not in the source tree: a topologically sorted sequence of Tech names
respecting `prerequisites` edges, or `CyclicDependencyError`. -/
def resolveDependencyOrder (ts : List Tech) : Except LoadError (List String) :=
  topoAux ts.length [] ts

/-- Prerequisite edge of a loaded Tech set: `PrereqEdge ts a b` holds when
`a` is a declared prerequisite of the record named `b`. -/
def PrereqEdge (ts : List Tech) (a b : String) : Prop :=
  ∃ t ∈ ts, t.name = b ∧ a ∈ t.prereqNames

/-- The prerequisite graph contains a cycle: some name reaches itself by a
nonempty chain of prerequisite edges. -/
def HasCycle (ts : List Tech) : Prop :=
  ∃ n, Relation.TransGen (PrereqEdge ts) n n

/-- `Before l a b`: both names occur in `l` and `a` occurs strictly
earlier than `b`. -/
def Before (l : List String) (a b : String) : Prop :=
  a ∈ l ∧ b ∈ l ∧ l.indexOf a < l.indexOf b

/-- Updating the planet at one position of the universe, leaving every
other position unchanged. -/
def modifyIdx (f : Planet → Planet) : Nat → List Planet → List Planet
  | _, [] => []
  | 0, p :: rest => f p :: rest
  | n + 1, p :: rest => p :: modifyIdx f n rest

/-- Modelled from the spec: applying the per-planet effect application at
each universe position named by `order`, sequentially.  Order-independence
of the resolution pass is stated as invariance of this fold under
permutations of `order`. -/
def applyGroupInOrder (sourceOwner : Nat) (g : EffectsGroup) (objs : List Planet)
    (order : List Nat) : List Planet :=
  order.foldl (fun u i => modifyIdx (applyGroupToPlanet sourceOwner g) i u) objs

/-- Whether a `prerequisites=` field was declared as a sequence. -/
def PrereqField.isSeq : PrereqField → Bool
  | .single _ => false
  | .many _ => true

lemma evalCondition_symbioticScope_planet (sourceOwner : Nat) (p : Planet) :
    evalCondition sourceOwner (.planet p) symbioticScope
      = ((p.owner == some sourceOwner)
          && [PlanetEnvironment.good, .adequate, .poor].contains p.environment) := rfl

lemma evalCondition_symbioticScope_true_iff (sourceOwner : Nat) (obj : GameObject) :
    evalCondition sourceOwner obj symbioticScope = true
      ↔ ∃ p, obj = .planet p ∧ p.owner = some sourceOwner
          ∧ (p.environment = .good ∨ p.environment = .adequate ∨ p.environment = .poor) := by
  cases obj with
  | planet p =>
      rw [evalCondition_symbioticScope_planet, Bool.and_eq_true]
      constructor
      · rintro ⟨h1, h2⟩
        refine ⟨p, rfl, by simpa using h1, ?_⟩
        cases he : p.environment
        · rw [he] at h2; exact absurd h2 (by decide)
        · rw [he] at h2; exact absurd h2 (by decide)
        · exact Or.inr (Or.inr rfl)
        · exact Or.inr (Or.inl rfl)
        · exact Or.inl rfl
      · rintro ⟨q, hq, ho, he⟩
        cases hq
        refine ⟨by simpa using ho, ?_⟩
        rcases he with h | h | h <;> rw [h] <;> rfl
  | ship o i => simp [evalCondition, symbioticScope]

lemma applyEffect_symbioticEffect (p : Planet) :
    applyEffect symbioticEffect p
      = { p with targetPopulation := p.targetPopulation + 1 * (p.habitableSize : Rat) } := by
  simp [applyEffect, symbioticEffect, evalValueExpr]

/-- Claim C1: applying the declared EffectsGroup to a planet owned by the
source empire whose environment is Good, Adequate or Poor increases its
target population by exactly `1 * HabitableSize` (so `HabitableSize = 3`
gives exactly `+3`), while any planet outside the scope predicate — in
particular one with `environment = Hostile` — is left unchanged. -/
theorem symbiotic_effectsgroup_scoped_increase (sourceOwner : Nat) (prio : Int) (p : Planet)
    (howner : p.owner = some sourceOwner)
    (henv : p.environment = .good ∨ p.environment = .adequate ∨ p.environment = .poor) :
    ((applyGroupToPlanet sourceOwner (symbioticGroup prio) p).targetPopulation
        = p.targetPopulation + 1 * (p.habitableSize : Rat))
    ∧ (p.habitableSize = 3 →
        (applyGroupToPlanet sourceOwner (symbioticGroup prio) p).targetPopulation
          = p.targetPopulation + 3)
    ∧ (∀ q : Planet, evalCondition sourceOwner (.planet q) symbioticScope = false →
        applyGroupToPlanet sourceOwner (symbioticGroup prio) q = q)
    ∧ (∀ q : Planet, q.environment = .hostile →
        applyGroupToPlanet sourceOwner (symbioticGroup prio) q = q) := by
  have hscope : evalCondition sourceOwner (.planet p) symbioticScope = true := by
    rw [evalCondition_symbioticScope_true_iff]
    exact ⟨p, rfl, howner, henv⟩
  have happ : applyGroupToPlanet sourceOwner (symbioticGroup prio) p
      = applyEffect symbioticEffect p := by
    simp [applyGroupToPlanet, symbioticGroup, hscope]
  have hout : ∀ q : Planet, evalCondition sourceOwner (.planet q) symbioticScope = false →
      applyGroupToPlanet sourceOwner (symbioticGroup prio) q = q := by
    intro q hq
    simp [applyGroupToPlanet, symbioticGroup, hq]
  refine ⟨?_, ?_, hout, ?_⟩
  · rw [happ, applyEffect_symbioticEffect]
  · intro h3
    rw [happ, applyEffect_symbioticEffect]
    simp [h3]
  · intro q hq
    refine hout q ?_
    rw [evalCondition_symbioticScope_planet]
    simp [hq, List.contains_eq_any_beq]

/-- A concrete planet used by witnesses: owned by empire 1, environment
Adequate, habitable size 3. -/
def pDemo : Planet :=
  { id := 7
    owner := some 1
    environment := .adequate
    habitableSize := 3
    targetPopulation := 4
    currentPopulation := 2
    focus := "FOCUS_FARMING" }

/-- Witness for C1 at a concrete planet: owned by empire 1, environment
Adequate, habitable size 3. -/
theorem symbiotic_effectsgroup_scoped_increase_witness :
    pDemo.owner = some 1
    ∧ (pDemo.environment = .good ∨ pDemo.environment = .adequate
        ∨ pDemo.environment = .poor)
    ∧ (applyGroupToPlanet 1 (symbioticGroup 0) pDemo).targetPopulation
        = pDemo.targetPopulation + 3 :=
  ⟨rfl, Or.inr (Or.inl rfl),
    (symbiotic_effectsgroup_scoped_increase 1 0 pDemo rfl
      (Or.inr (Or.inl rfl))).2.1 rfl⟩

/-- Claim C8: the declared scope is a pure predicate over a candidate
object: it evaluates to `true` exactly when the object is a Planet owned
by the source empire whose environment is Good, Adequate or Poor.  In the
shallow embedding `evalCondition` is a `Bool`-valued function of the
object, so evaluation has no effect on any state and two evaluations on
identical state agree by reflexivity. -/
theorem symbiotic_scope_characterization :
    ∀ (sourceOwner : Nat) (obj : GameObject),
      evalCondition sourceOwner obj symbioticScope = true
        ↔ ∃ p, obj = .planet p ∧ p.owner = some sourceOwner
            ∧ (p.environment = .good ∨ p.environment = .adequate
                ∨ p.environment = .poor) :=
  fun sourceOwner obj => evalCondition_symbioticScope_true_iff sourceOwner obj

/-- Claim C9 (frame property): the declared `SetTargetPopulation` effect
changes only the planet's target population — identity, owner,
environment, habitable size, current population and focus are untouched —
and a resolution pass over a universe of planets acts pointwise, so the
object at every position depends only on the object previously at that
position and no other object is affected. -/
theorem symbiotic_effect_frame :
    ∀ p : Planet,
      ((applyEffect symbioticEffect p).id = p.id
        ∧ (applyEffect symbioticEffect p).owner = p.owner
        ∧ (applyEffect symbioticEffect p).environment = p.environment
        ∧ (applyEffect symbioticEffect p).habitableSize = p.habitableSize
        ∧ (applyEffect symbioticEffect p).currentPopulation = p.currentPopulation
        ∧ (applyEffect symbioticEffect p).focus = p.focus)
      ∧ ∀ (sourceOwner : Nat) (prio : Int) (objs : List Planet) (i : Nat),
          (applyGroup sourceOwner (symbioticGroup prio) objs).get? i
            = (objs.get? i).map (applyGroupToPlanet sourceOwner (symbioticGroup prio)) := by
  intro p
  refine ⟨⟨rfl, rfl, rfl, rfl, rfl, rfl⟩, ?_⟩
  intro sourceOwner prio objs i
  simp [applyGroup]

/-- Counterexample to claim C2 as stated: the `prerequisites` field of the
declared `GRO_SYMBIOTIC_BIO` record is not a sequence — the source passes
the single identifier `"GRO_PLANET_ECOL"`, not a list. -/
theorem prerequisites_not_sequence_counterexample :
    (symbioticBioTech 1 0).prerequisites.isSeq = false := rfl

/-- Claim C2 (amended): the `GRO_SYMBIOTIC_BIO` record declares its
`prerequisites` field as the single Tech identifier `"GRO_PLANET_ECOL"`
rather than a sequence; its normalized one-or-more-identifiers view is the
one-element sequence `["GRO_PLANET_ECOL"]`, which does conform to the
spec's "one or more Tech identifiers" shape. -/
theorem prerequisites_single_normalized :
    ∀ m prio : Int,
      (symbioticBioTech m prio).prerequisites = .single "GRO_PLANET_ECOL"
      ∧ (symbioticBioTech m prio).prereqNames = ["GRO_PLANET_ECOL"]
      ∧ 1 ≤ (symbioticBioTech m prio).prereqNames.length :=
  fun _ _ => ⟨rfl, rfl, Nat.le_refl 1⟩

lemma completeResearch_of_mem (t : Tech) (e : Empire)
    (h : t.name ∈ e.researchedTechs) : completeResearch t e = e := by
  simp [completeResearch, h]

lemma completeResearch_symbiotic_eq (m prio : Int) (e : Empire)
    (hres : "GRO_SYMBIOTIC_BIO" ∉ e.researchedTechs)
    (hdiv : "PLC_DIVERSITY" ∉ e.availablePolicies)
    (hbm : "PLC_BLACK_MARKET" ∉ e.availablePolicies) :
    completeResearch (symbioticBioTech m prio) e
      = { e with
          researchedTechs := e.researchedTechs ++ ["GRO_SYMBIOTIC_BIO"]
          availablePolicies := e.availablePolicies
            ++ ["PLC_DIVERSITY", "PLC_BLACK_MARKET"] } := by
  have hc : (e.researchedTechs.contains "GRO_SYMBIOTIC_BIO") = false := by
    simpa using hres
  have hd : (e.availablePolicies.contains "PLC_DIVERSITY") = false := by
    simpa using hdiv
  have hb : ((e.availablePolicies ++ ["PLC_DIVERSITY"]).contains "PLC_BLACK_MARKET")
      = false := by
    simp [List.mem_append, hbm]
  simp only [completeResearch, symbioticBioTech, List.foldl, grantItem, hc, hd, hb,
    Bool.false_eq_true, if_false, List.append_assoc, List.singleton_append,
    List.cons_append, List.nil_append]

/-- Claim C4: completing research of `GRO_SYMBIOTIC_BIO` grants the
researching empire exactly the two declared unlocks, `PLC_DIVERSITY` and
`PLC_BLACK_MARKET`, each exactly once (each policy's availability count
rises by exactly one), and re-processing the same completion event is
idempotent: it grants nothing further. -/
theorem completeResearch_unlocks_spec (m prio : Int) (e : Empire)
    (hres : "GRO_SYMBIOTIC_BIO" ∉ e.researchedTechs)
    (hdiv : "PLC_DIVERSITY" ∉ e.availablePolicies)
    (hbm : "PLC_BLACK_MARKET" ∉ e.availablePolicies) :
    ((completeResearch (symbioticBioTech m prio) e).availablePolicies
      = e.availablePolicies ++ ["PLC_DIVERSITY", "PLC_BLACK_MARKET"])
    ∧ ((completeResearch (symbioticBioTech m prio) e).availablePolicies.count
          "PLC_DIVERSITY"
        = e.availablePolicies.count "PLC_DIVERSITY" + 1)
    ∧ ((completeResearch (symbioticBioTech m prio) e).availablePolicies.count
          "PLC_BLACK_MARKET"
        = e.availablePolicies.count "PLC_BLACK_MARKET" + 1)
    ∧ completeResearch (symbioticBioTech m prio)
        (completeResearch (symbioticBioTech m prio) e)
      = completeResearch (symbioticBioTech m prio) e := by
  have h1 := completeResearch_symbiotic_eq m prio e hres hdiv hbm
  refine ⟨by rw [h1], ?_, ?_, ?_⟩
  · rw [h1]
    simp [List.count_append]
  · rw [h1]
    simp [List.count_append]
  · refine completeResearch_of_mem _ _ ?_
    rw [h1]
    simp only [List.mem_append]
    exact Or.inr (List.mem_singleton.mpr rfl)

/-- Witness for C4 at a concrete empire with no researched techs and no
available policies. -/
theorem completeResearch_unlocks_spec_witness :
    (completeResearch (symbioticBioTech 1 0)
        { id := 1, researchedTechs := [], availablePolicies := [] }).availablePolicies
      = [] ++ ["PLC_DIVERSITY", "PLC_BLACK_MARKET"] :=
  (completeResearch_unlocks_spec 1 0
    { id := 1, researchedTechs := [], availablePolicies := [] }
    (by simp) (by simp) (by simp)).1

lemma mem_prereqErrors_shape (allNames : List String) (t : Tech) (err : LoadError)
    (h : err ∈ prereqErrors allNames t) :
    ∃ p, err = .unresolvedPrerequisiteError t.name p := by
  unfold prereqErrors at h
  rw [List.mem_filterMap] at h
  obtain ⟨p, _, hf⟩ := h
  revert hf
  split
  · intro hf
    exact Option.noConfusion hf
  · intro hf
    exact ⟨p, (Option.some_inj.mp hf).symm⟩

lemma invalidRange_validateRecord_iff (accepted : List Tech) (allNames : List String)
    (t : Tech) :
    LoadError.invalidRangeError t.name ∈ validateRecord accepted allNames t
      ↔ (t.researchturns < 1 ∨ t.researchcost < 0) := by
  unfold validateRecord
  simp only [List.mem_append]
  constructor
  · rintro ((h | h) | h)
    · exfalso
      unfold dupErrors at h
      revert h
      split <;> simp
    · revert h
      unfold rangeErrors
      split
      · intro _
        assumption
      · intro h
        simp at h
    · obtain ⟨p, hp⟩ := mem_prereqErrors_shape allNames t _ h
      exact absurd hp (by simp)
  · intro h
    refine Or.inl (Or.inr ?_)
    unfold rangeErrors
    rw [if_pos h]
    exact List.mem_singleton.mpr rfl

/-- Claim C5: `Validate` flags `InvalidRangeError` exactly for candidate
records with `researchturns < 1` or `researchcost < 0`, and the declared
`GRO_SYMBIOTIC_BIO` record — `researchturns = 6`,
`researchcost = 50 * TECH_COST_MULTIPLIER` — satisfies the range
constraints whenever the cost multiplier is non-negative. -/
theorem validate_range_spec :
    (∀ (accepted : List Tech) (allNames : List String) (t : Tech),
      LoadError.invalidRangeError t.name ∈ validateRecord accepted allNames t
        ↔ (t.researchturns < 1 ∨ t.researchcost < 0))
    ∧ ∀ (accepted : List Tech) (allNames : List String) (m prio : Int),
        0 ≤ m →
        LoadError.invalidRangeError "GRO_SYMBIOTIC_BIO"
          ∉ validateRecord accepted allNames (symbioticBioTech m prio) := by
  refine ⟨invalidRange_validateRecord_iff, ?_⟩
  intro accepted allNames m prio hm h
  have h2 := (invalidRange_validateRecord_iff accepted allNames (symbioticBioTech m prio)).mp h
  rcases h2 with h1 | h1
  · norm_num [symbioticBioTech] at h1
  · simp only [symbioticBioTech] at h1
    omega

/-- Witness for C5: the declared record with cost multiplier 1 passes the
range checks. -/
theorem validate_range_spec_witness :
    (0 : Int) ≤ 1
    ∧ LoadError.invalidRangeError "GRO_SYMBIOTIC_BIO"
        ∉ validateRecord [] [] (symbioticBioTech 1 0) :=
  ⟨by decide, validate_range_spec.2 [] [] 1 0 (by decide)⟩

/-- Claim C6: loading `GRO_SYMBIOTIC_BIO` while its declared prerequisite
`GRO_PLANET_ECOL` is absent from the registry fails with
`UnresolvedPrerequisiteError`; the malformed record is rejected and
excluded from the active content set (the accepted registry is empty) and
the error is surfaced in the collected error list. -/
theorem load_missing_prerequisite_spec (m prio : Int) (hm : 0 ≤ m) :
    loadContent [symbioticBioTech m prio]
      = ([], [LoadError.unresolvedPrerequisiteError "GRO_SYMBIOTIC_BIO"
                "GRO_PLANET_ECOL"]) := by
  have hrange : rangeErrors (symbioticBioTech m prio) = [] := by
    unfold rangeErrors
    rw [if_neg]
    rintro (h | h)
    · norm_num [symbioticBioTech] at h
    · simp only [symbioticBioTech] at h
      omega
  have hdup : dupErrors [] (symbioticBioTech m prio) = [] := rfl
  have hpre : prereqErrors (techNames [symbioticBioTech m prio]) (symbioticBioTech m prio)
      = [LoadError.unresolvedPrerequisiteError "GRO_SYMBIOTIC_BIO" "GRO_PLANET_ECOL"] := rfl
  unfold loadContent
  simp only [List.foldl, validateRecord, hrange, hdup, hpre]
  rfl

/-- Witness for C6: with cost multiplier 1, the lone record is rejected
with the unresolved-prerequisite error. -/
theorem load_missing_prerequisite_spec_witness :
    (0 : Int) ≤ 1
    ∧ loadContent [symbioticBioTech 1 0]
      = ([], [LoadError.unresolvedPrerequisiteError "GRO_SYMBIOTIC_BIO"
                "GRO_PLANET_ECOL"]) :=
  ⟨by decide, load_missing_prerequisite_spec 1 0 (by decide)⟩

lemma dupErrors_eq_nil_iff (accepted : List Tech) (t : Tech) :
    dupErrors accepted t = [] ↔ t.name ∉ techNames accepted := by
  unfold dupErrors
  split
  · simp_all
  · simp_all

lemma load_foldl_nodup (allNames : List String) :
    ∀ (records : List Tech) (acc : List Tech × List LoadError),
      (techNames acc.1).Nodup →
      (techNames ((records.foldl
        (fun acc t =>
          let errs := validateRecord acc.1 allNames t
          if errs.isEmpty then (acc.1 ++ [t], acc.2) else (acc.1, acc.2 ++ errs))
        acc)).1).Nodup := by
  intro records
  induction records with
  | nil =>
      intro acc h
      exact h
  | cons t rest ih =>
      intro acc h
      rw [List.foldl_cons]
      apply ih
      by_cases hemp : (validateRecord acc.1 allNames t).isEmpty
      · simp only [hemp, if_true]
        have herrs : validateRecord acc.1 allNames t = [] :=
          List.isEmpty_iff.mp hemp
        have hdup : dupErrors acc.1 t = [] := by
          unfold validateRecord at herrs
          exact (List.append_eq_nil.mp (List.append_eq_nil.mp herrs).1).1
        have hnotmem : t.name ∉ techNames acc.1 :=
          (dupErrors_eq_nil_iff acc.1 t).mp hdup
        simp only [techNames, List.map_append, List.map]
        rw [List.nodup_append]
        refine ⟨h, List.nodup_singleton _, ?_⟩
        intro a ha hb
        rw [List.mem_singleton] at hb
        subst hb
        exact hnotmem ha
      · simp only [hemp, if_false]
        exact h

/-- Claim C7: `name` is globally unique across all accepted Tech records
(the registry accepted by `loadContent` never holds two records of the
same name), and loading the same record twice yields `DuplicateNameError`
on the second load while the first loaded record remains in the
registry. -/
theorem duplicate_load_spec :
    (∀ records : List Tech, (techNames (loadContent records).1).Nodup)
    ∧ ∀ t : Tech, validateRecord [] [t.name, t.name] t = [] →
        loadContent [t, t] = ([t], [LoadError.duplicateNameError t.name]) := by
  constructor
  · intro records
    exact load_foldl_nodup (techNames records) records ([], []) (by simp [techNames])
  · intro t hv
    have hparts := List.append_eq_nil.mp hv
    have hrange : rangeErrors t = [] := (List.append_eq_nil.mp hparts.1).2
    have hpre : prereqErrors [t.name, t.name] t = [] := hparts.2
    have hdup2 : dupErrors [t] t = [LoadError.duplicateNameError t.name] := by
      unfold dupErrors
      rw [if_pos]
      simp [techNames]
    have hnames : techNames [t, t] = [t.name, t.name] := rfl
    unfold loadContent
    rw [hnames]
    have hdup0 : dupErrors [] t = [] := rfl
    simp only [List.foldl_cons, List.foldl_nil, validateRecord, hrange, hpre, hdup0, hdup2]
    rw [if_neg (by simp [hdup2])]
    simp [hdup2]

/-- Witness for C7: loading the modelled `GRO_PLANET_ECOL` record twice
keeps the first copy and reports a duplicate-name error. -/
theorem duplicate_load_spec_witness :
    validateRecord [] ["GRO_PLANET_ECOL", "GRO_PLANET_ECOL"] planetEcolTech = []
    ∧ loadContent [planetEcolTech, planetEcolTech]
      = ([planetEcolTech], [LoadError.duplicateNameError "GRO_PLANET_ECOL"]) :=
  ⟨rfl, duplicate_load_spec.2 planetEcolTech rfl⟩

lemma modifyIdx_comm (f : Planet → Planet) :
    ∀ (u : List Planet) (i j : Nat),
      modifyIdx f j (modifyIdx f i u) = modifyIdx f i (modifyIdx f j u) := by
  intro u
  induction u with
  | nil => intro i j; cases i <;> cases j <;> rfl
  | cons p rest ih =>
      intro i j
      cases i with
      | zero =>
          cases j with
          | zero => rfl
          | succ k => rfl
      | succ n =>
          cases j with
          | zero => rfl
          | succ k =>
              show p :: modifyIdx f k (modifyIdx f n rest)
                = p :: modifyIdx f n (modifyIdx f k rest)
              rw [ih n k]

/-- Claim C10: the declared scope does not read target population, so
changing a planet's target population — in particular, applying the
declared effect — never changes whether any planet satisfies the scope;
consequently a resolution pass applying the per-planet update at the
universe positions of `order` is invariant under permuting `order`, i.e.
the per-planet applications are order-independent. -/
theorem scope_population_invariance :
    (∀ (sourceOwner : Nat) (p : Planet) (x : Rat),
      evalCondition sourceOwner (.planet { p with targetPopulation := x }) symbioticScope
        = evalCondition sourceOwner (.planet p) symbioticScope)
    ∧ (∀ (sourceOwner : Nat) (prio : Int) (p : Planet),
      evalCondition sourceOwner
          (.planet (applyGroupToPlanet sourceOwner (symbioticGroup prio) p)) symbioticScope
        = evalCondition sourceOwner (.planet p) symbioticScope)
    ∧ ∀ (sourceOwner : Nat) (prio : Int) (objs : List Planet) (ord₁ ord₂ : List Nat),
        ord₁.Perm ord₂ →
        applyGroupInOrder sourceOwner (symbioticGroup prio) objs ord₁
          = applyGroupInOrder sourceOwner (symbioticGroup prio) objs ord₂ := by
  refine ⟨fun sourceOwner p x => rfl, ?_, ?_⟩
  · intro sourceOwner prio p
    unfold applyGroupToPlanet
    split
    · rw [show (symbioticGroup prio).effects = symbioticEffect from rfl,
        applyEffect_symbioticEffect]
      rfl
    · rfl
  · intro sourceOwner prio objs ord₁ ord₂ hperm
    unfold applyGroupInOrder
    exact hperm.foldl_eq'
      (fun x _ y _ z => modifyIdx_comm (applyGroupToPlanet sourceOwner (symbioticGroup prio)) z x y)
      objs

/-- Witness for C10: applying the pass at positions `[0, 1]` and at the
permuted positions `[1, 0]` of a two-planet universe gives the same
result. -/
theorem scope_population_invariance_witness :
    ([0, 1] : List Nat).Perm [1, 0]
    ∧ applyGroupInOrder 1 (symbioticGroup 0) [pDemo, pDemo] [0, 1]
      = applyGroupInOrder 1 (symbioticGroup 0) [pDemo, pDemo] [1, 0] :=
  ⟨List.Perm.swap 1 0 [],
    scope_population_invariance.2.2 1 0 [pDemo, pDemo] [0, 1] [1, 0]
      (List.Perm.swap 1 0 [])⟩

lemma techName_inj (ts : List Tech) (hnodup : (techNames ts).Nodup)
    {t t' : Tech} (ht : t ∈ ts) (ht' : t' ∈ ts) (he : t.name = t'.name) : t = t' :=
  List.inj_on_of_nodup_map (by simpa [techNames] using hnodup) ht ht' he

lemma readyTech_mem {done : List String} {t : Tech} (h : readyTech done t = true) :
    ∀ p ∈ t.prereqNames, p ∈ done := by
  intro p hp
  have := List.all_eq_true.mp h p hp
  simpa using this

lemma before_trans {l : List String} {a b c : String}
    (h1 : Before l a b) (h2 : Before l b c) : Before l a c :=
  ⟨h1.1, h2.2.1, lt_trans h1.2.2 h2.2.2⟩

lemma topo_done_props (ts : List Tech) (hnodup : (techNames ts).Nodup)
    (done : List String)
    (hperm : done.Perm (techNames ts))
    (hclosed : ∀ b ∈ done, ∀ a, PrereqEdge ts a b → a ∈ done)
    (hpair : List.Pairwise (fun x y => ¬ PrereqEdge ts x y) done)
    (hself : ∀ a ∈ done, ¬ PrereqEdge ts a a) :
    done.reverse.Perm (techNames ts)
      ∧ ∀ a b, PrereqEdge ts a b → Before done.reverse a b := by
  refine ⟨(done.reverse_perm).trans hperm, ?_⟩
  intro a b hedge
  obtain ⟨t, ht, hname, hpre⟩ := hedge
  subst hname
  have hbmem : t.name ∈ techNames ts := List.mem_map_of_mem Tech.name ht
  have hb : t.name ∈ done := hperm.mem_iff.mpr hbmem
  have hedge' : PrereqEdge ts a t.name := ⟨t, ht, rfl, hpre⟩
  have ha : a ∈ done := hclosed t.name hb a hedge'
  have hanb : a ≠ t.name := fun he => hself a ha (he ▸ hedge')
  have hnd : done.Nodup := hperm.nodup_iff.mpr hnodup
  have har : a ∈ done.reverse := by simpa using ha
  have hbr : t.name ∈ done.reverse := by simpa using hb
  refine ⟨har, hbr, ?_⟩
  have hia : done.reverse.indexOf a < done.reverse.length :=
    List.indexOf_lt_length.mpr har
  have hib : done.reverse.indexOf t.name < done.reverse.length :=
    List.indexOf_lt_length.mpr hbr
  have e1 : done.reverse.get ⟨done.reverse.indexOf a, hia⟩ = a := List.indexOf_get hia
  have e2 : done.reverse.get ⟨done.reverse.indexOf t.name, hib⟩ = t.name :=
    List.indexOf_get hib
  have hpr : List.Pairwise (fun x y => ¬ PrereqEdge ts y x) done.reverse := by
    rw [List.pairwise_reverse]
    exact hpair
  rcases Nat.lt_trichotomy (done.reverse.indexOf a) (done.reverse.indexOf t.name)
    with hlt | heq | hgt
  · exact hlt
  · exfalso
    apply hanb
    rw [← e1, ← e2]
    exact congrArg done.reverse.get (Fin.ext heq)
  · exfalso
    have hp := List.pairwise_iff_get.mp hpr
      ⟨done.reverse.indexOf t.name, hib⟩ ⟨done.reverse.indexOf a, hia⟩ hgt
    rw [e1, e2] at hp
    exact hp hedge'

lemma topoAux_ok_invariant (ts : List Tech) (hnodup : (techNames ts).Nodup) :
    ∀ (fuel : Nat) (done : List String) (pending : List Tech),
      (∀ t ∈ pending, t ∈ ts) →
      (done ++ techNames pending).Perm (techNames ts) →
      (∀ b ∈ done, ∀ a, PrereqEdge ts a b → a ∈ done) →
      List.Pairwise (fun x y => ¬ PrereqEdge ts x y) done →
      (∀ a ∈ done, ¬ PrereqEdge ts a a) →
      ∀ l, topoAux fuel done pending = .ok l →
        l.Perm (techNames ts) ∧ ∀ a b, PrereqEdge ts a b → Before l a b := by
  intro fuel
  induction fuel with
  | zero =>
      intro done pending hsub hperm hclosed hpair hself l hok
      simp only [topoAux] at hok
      by_cases hp : pending.isEmpty
      · rw [if_pos hp] at hok
        obtain rfl : done.reverse = l := Except.ok.inj hok
        have hpend : pending = [] := List.isEmpty_iff.mp hp
        subst hpend
        simp only [techNames, List.map_nil, List.append_nil] at hperm
        exact topo_done_props ts hnodup done hperm hclosed hpair hself
      · rw [if_neg hp] at hok
        exact Except.noConfusion hok
  | succ fuel ih =>
      intro done pending hsub hperm hclosed hpair hself l hok
      simp only [topoAux] at hok
      by_cases hp : pending.isEmpty
      · rw [if_pos hp] at hok
        obtain rfl : done.reverse = l := Except.ok.inj hok
        have hpend : pending = [] := List.isEmpty_iff.mp hp
        subst hpend
        simp only [techNames, List.map_nil, List.append_nil] at hperm
        exact topo_done_props ts hnodup done hperm hclosed hpair hself
      · rw [if_neg hp] at hok
        cases hfind : pending.find? (readyTech done) with
        | none =>
            rw [hfind] at hok
            exact Except.noConfusion hok
        | some t =>
            rw [hfind] at hok
            have htpend : t ∈ pending := List.mem_of_find?_eq_some hfind
            have hready : readyTech done t = true := List.find?_some hfind
            have hprein : ∀ p ∈ t.prereqNames, p ∈ done := readyTech_mem hready
            have hts : t ∈ ts := hsub t htpend
            have hndall : (done ++ techNames pending).Nodup :=
              hperm.nodup_iff.mpr hnodup
            have hdisj : done.Disjoint (techNames pending) :=
              (List.nodup_append.mp hndall).2.2
            have htnotdone : t.name ∉ done := fun h =>
              hdisj h (List.mem_map_of_mem Tech.name htpend)
            have hsub' : ∀ u ∈ pending.erase t, u ∈ ts := fun u hu =>
              hsub u (List.erase_subset t pending hu)
            have hperm' : ((t.name :: done) ++ techNames (pending.erase t)).Perm
                (techNames ts) := by
              have h1 : pending.Perm (t :: pending.erase t) := List.perm_cons_erase htpend
              have h2 : (techNames pending).Perm
                  (t.name :: techNames (pending.erase t)) := by
                simpa [techNames] using h1.map Tech.name
              have h3 : ((t.name :: done) ++ techNames (pending.erase t)).Perm
                  (done ++ t.name :: techNames (pending.erase t)) :=
                List.perm_middle.symm
              have h4 : (done ++ t.name :: techNames (pending.erase t)).Perm
                  (done ++ techNames pending) :=
                (h2.symm).append_left done
              exact h3.trans (h4.trans hperm)
            have hclosed' : ∀ b ∈ (t.name :: done), ∀ a, PrereqEdge ts a b →
                a ∈ (t.name :: done) := by
              intro b hb a hedge
              rcases List.mem_cons.mp hb with rfl | hb'
              · obtain ⟨t', ht', hname, hpre⟩ := hedge
                have ht'eq : t' = t := techName_inj ts hnodup ht' hts hname
                subst ht'eq
                exact List.mem_cons_of_mem _ (hprein a hpre)
              · exact List.mem_cons_of_mem _ (hclosed b hb' a hedge)
            have hpair' : List.Pairwise (fun x y => ¬ PrereqEdge ts x y)
                (t.name :: done) := by
              rw [List.pairwise_cons]
              refine ⟨?_, hpair⟩
              intro y hy hedgety
              exact htnotdone (hclosed y hy t.name hedgety)
            have hself' : ∀ a ∈ (t.name :: done), ¬ PrereqEdge ts a a := by
              intro a ha hedge
              rcases List.mem_cons.mp ha with rfl | ha'
              · obtain ⟨t', ht', hname, hpre⟩ := hedge
                have ht'eq : t' = t := techName_inj ts hnodup ht' hts hname
                subst ht'eq
                exact htnotdone (hprein _ hpre)
              · exact hself a ha' hedge
            exact ih (t.name :: done) (pending.erase t) hsub' hperm' hclosed'
              hpair' hself' l hok

lemma resolveDependencyOrder_ok_props (ts : List Tech)
    (hnodup : (techNames ts).Nodup) (l : List String)
    (hok : resolveDependencyOrder ts = .ok l) :
    l.Perm (techNames ts) ∧ ∀ a b, PrereqEdge ts a b → Before l a b :=
  topoAux_ok_invariant ts hnodup ts.length [] ts (fun _ ht => ht)
    (by simp) (by simp) List.Pairwise.nil (by simp) l hok

lemma resolveDependencyOrder_ok_acyclic (ts : List Tech)
    (hnodup : (techNames ts).Nodup) (l : List String)
    (hok : resolveDependencyOrder ts = .ok l) : ¬ HasCycle ts := by
  rintro ⟨n, hcyc⟩
  have hresp := (resolveDependencyOrder_ok_props ts hnodup l hok).2
  have hgen : ∀ x y, Relation.TransGen (PrereqEdge ts) x y → Before l x y := by
    intro x y hxy
    induction hxy with
    | single h => exact hresp _ _ h
    | tail _ hedge ihb => exact before_trans ihb (hresp _ _ hedge)
  exact lt_irrefl _ (hgen n n hcyc).2.2

lemma topoAux_error_eq :
    ∀ (fuel : Nat) (done : List String) (pending : List Tech) (e : LoadError),
      topoAux fuel done pending = .error e → e = .cyclicDependencyError := by
  intro fuel
  induction fuel with
  | zero =>
      intro done pending e h
      simp only [topoAux] at h
      by_cases hp : pending.isEmpty
      · rw [if_pos hp] at h
        exact Except.noConfusion h
      · rw [if_neg hp] at h
        exact (Except.error.inj h).symm
  | succ fuel ih =>
      intro done pending e h
      simp only [topoAux] at h
      by_cases hp : pending.isEmpty
      · rw [if_pos hp] at h
        exact Except.noConfusion h
      · rw [if_neg hp] at h
        cases hfind : pending.find? (readyTech done) with
        | none =>
            rw [hfind] at h
            exact (Except.error.inj h).symm
        | some t =>
            rw [hfind] at h
            exact ih (t.name :: done) (pending.erase t) e h

lemma cycle_of_no_ready (ts : List Tech) (pending : List Tech)
    (hne : pending ≠ [])
    (hstep : ∀ u ∈ pending, ∃ u' ∈ pending, PrereqEdge ts u'.name u.name) :
    HasCycle ts := by
  obtain ⟨t₀, ht₀⟩ := List.exists_mem_of_ne_nil pending hne
  choose f hmem hedge using hstep
  let g : Nat → {x : Tech // x ∈ pending} := fun n =>
    Nat.rec ⟨t₀, ht₀⟩ (fun _ prev => ⟨f prev.1 prev.2, hmem prev.1 prev.2⟩) n
  have hgedge : ∀ n, PrereqEdge ts (g (n + 1)).1.name (g n).1.name := fun n =>
    hedge (g n).1 (g n).2
  let nm : Nat → String := fun n => (g n).1.name
  have hchain : ∀ d n, Relation.TransGen (PrereqEdge ts) (nm (n + d + 1)) (nm n) := by
    intro d
    induction d with
    | zero =>
        intro n
        exact Relation.TransGen.single (hgedge n)
    | succ d ihd =>
        intro n
        exact Relation.TransGen.head (hgedge (n + d + 1)) (ihd n)
  have hnm : ∀ n, nm n ∈ techNames pending := fun n =>
    List.mem_map_of_mem Tech.name (g n).2
  have hmaps : ∀ n ∈ Finset.range ((techNames pending).length + 1),
      nm n ∈ (techNames pending).toFinset := fun n _ => List.mem_toFinset.mpr (hnm n)
  have hcard : (techNames pending).toFinset.card
      < (Finset.range ((techNames pending).length + 1)).card := by
    rw [Finset.card_range]
    exact Nat.lt_succ_of_le (List.toFinset_card_le _)
  obtain ⟨i, _, j, _, hij, heq⟩ :=
    Finset.exists_ne_map_eq_of_card_lt_of_maps_to hcard hmaps
  rcases Nat.lt_or_ge i j with hlt | hge
  · have hj' : j = i + (j - i - 1) + 1 := by omega
    have hc := hchain (j - i - 1) i
    rw [← hj'] at hc
    rw [heq] at hc
    exact ⟨nm j, hc⟩
  · have hi' : i = j + (i - j - 1) + 1 := by omega
    have hc := hchain (i - j - 1) j
    rw [← hi'] at hc
    rw [← heq] at hc
    exact ⟨nm i, hc⟩

lemma topoAux_ok_of_acyclic (ts : List Tech)
    (hclosed : ∀ t ∈ ts, ∀ p ∈ t.prereqNames, p ∈ techNames ts)
    (hacyc : ¬ HasCycle ts) :
    ∀ (fuel : Nat) (done : List String) (pending : List Tech),
      pending.length ≤ fuel →
      (∀ t ∈ pending, t ∈ ts) →
      (done ++ techNames pending).Perm (techNames ts) →
      ∃ l, topoAux fuel done pending = .ok l := by
  intro fuel
  induction fuel with
  | zero =>
      intro done pending hlen hsub hperm
      have hpend : pending = [] := List.length_eq_zero.mp (Nat.le_zero.mp hlen)
      subst hpend
      exact ⟨done.reverse, by simp [topoAux]⟩
  | succ fuel ih =>
      intro done pending hlen hsub hperm
      by_cases hp : pending.isEmpty
      · refine ⟨done.reverse, ?_⟩
        simp only [topoAux]
        rw [if_pos hp]
      · have hne : pending ≠ [] := fun h => hp (by simp [h])
        cases hfind : pending.find? (readyTech done) with
        | none =>
            exfalso
            apply hacyc
            apply cycle_of_no_ready ts pending hne
            intro u hu
            have hnotready : ¬ readyTech done u = true := by
              simpa using List.find?_eq_none.mp hfind u hu
            have hex : ∃ p ∈ u.prereqNames, p ∉ done := by
              by_contra hall
              push_neg at hall
              apply hnotready
              unfold readyTech
              rw [List.all_eq_true]
              intro p hp'
              simpa using hall p hp'
            obtain ⟨p, hp', hpnot⟩ := hex
            have hpmem : p ∈ techNames ts := hclosed u (hsub u hu) p hp'
            have hppend : p ∈ techNames pending := by
              have hmem2 : p ∈ done ++ techNames pending := hperm.mem_iff.mpr hpmem
              rcases List.mem_append.mp hmem2 with hd | hpn
              · exact absurd hd hpnot
              · exact hpn
            obtain ⟨t', ht', hname⟩ := List.mem_map.mp hppend
            refine ⟨t', ht', u, hsub u hu, rfl, ?_⟩
            rw [hname]
            exact hp'
        | some t =>
            have htpend : t ∈ pending := List.mem_of_find?_eq_some hfind
            have hlen' : (pending.erase t).length ≤ fuel := by
              rw [List.length_erase_of_mem htpend]
              have : 1 ≤ pending.length := List.length_pos.mpr hne
              omega
            have hsub' : ∀ u ∈ pending.erase t, u ∈ ts := fun u hu =>
              hsub u (List.erase_subset t pending hu)
            have hperm' : ((t.name :: done) ++ techNames (pending.erase t)).Perm
                (techNames ts) := by
              have h1 : pending.Perm (t :: pending.erase t) := List.perm_cons_erase htpend
              have h2 : (techNames pending).Perm
                  (t.name :: techNames (pending.erase t)) := by
                simpa [techNames] using h1.map Tech.name
              have h3 : ((t.name :: done) ++ techNames (pending.erase t)).Perm
                  (done ++ t.name :: techNames (pending.erase t)) :=
                List.perm_middle.symm
              have h4 : (done ++ t.name :: techNames (pending.erase t)).Perm
                  (done ++ techNames pending) :=
                (h2.symm).append_left done
              exact h3.trans (h4.trans hperm)
            obtain ⟨l, hl⟩ := ih (t.name :: done) (pending.erase t) hlen' hsub' hperm'
            refine ⟨l, ?_⟩
            simp only [topoAux]
            rw [if_neg hp, hfind]
            exact hl

/-- Claim C3: for every loaded Tech set (names unique, prerequisites
resolvable) whose prerequisite graph is acyclic, `ResolveDependencyOrder`
returns a permutation of all Tech names in which every prerequisite
precedes its dependent; if the graph has a cycle it fails with
`CyclicDependencyError`; and in the concrete scenario where
`GRO_PLANET_ECOL` is loaded alongside `GRO_SYMBIOTIC_BIO` (in either input
order), `GRO_PLANET_ECOL` appears before `GRO_SYMBIOTIC_BIO` in the
returned order.  (Termination holds by construction: the function is
total.) -/
theorem resolveDependencyOrder_spec (ts : List Tech)
    (hnodup : (techNames ts).Nodup)
    (hclosed : ∀ t ∈ ts, ∀ p ∈ t.prereqNames, p ∈ techNames ts) :
    (¬ HasCycle ts → ∃ l, resolveDependencyOrder ts = .ok l
        ∧ l.Perm (techNames ts)
        ∧ ∀ a b, PrereqEdge ts a b → Before l a b)
    ∧ (HasCycle ts → resolveDependencyOrder ts
        = .error LoadError.cyclicDependencyError)
    ∧ resolveDependencyOrder [planetEcolTech, symbioticBioTech 1 0]
        = .ok ["GRO_PLANET_ECOL", "GRO_SYMBIOTIC_BIO"]
    ∧ resolveDependencyOrder [symbioticBioTech 1 0, planetEcolTech]
        = .ok ["GRO_PLANET_ECOL", "GRO_SYMBIOTIC_BIO"] := by
  refine ⟨?_, ?_, rfl, rfl⟩
  · intro hacyc
    obtain ⟨l, hl⟩ := topoAux_ok_of_acyclic ts hclosed hacyc ts.length [] ts
      (le_refl _) (fun _ h => h) (by simp)
    have hprops := resolveDependencyOrder_ok_props ts hnodup l hl
    exact ⟨l, hl, hprops.1, hprops.2⟩
  · intro hcyc
    cases hres : resolveDependencyOrder ts with
    | ok l => exact absurd hcyc (resolveDependencyOrder_ok_acyclic ts hnodup l hres)
    | error e =>
        rw [topoAux_error_eq ts.length [] ts e hres]

/-- Witness for C3 at the concrete two-record set
`[GRO_PLANET_ECOL, GRO_SYMBIOTIC_BIO]`. -/
theorem resolveDependencyOrder_spec_witness :
    (techNames [planetEcolTech, symbioticBioTech 1 0]).Nodup
    ∧ resolveDependencyOrder [planetEcolTech, symbioticBioTech 1 0]
        = .ok ["GRO_PLANET_ECOL", "GRO_SYMBIOTIC_BIO"] :=
  ⟨by decide,
    (resolveDependencyOrder_spec [planetEcolTech, symbioticBioTech 1 0]
      (by decide) (by decide)).2.2.1⟩
